import Mathlib

/-!
Verification of the `digits` library: conversion between integers and
their base-10 digit sequences.

The source is generic over a numeric type `T`; we embed the values of
`T` as unbounded `Int`, which models the arithmetic of every supported
width on inputs whose results are representable (overflow is excluded
by the claims themselves).
-/

/-- Embeds `ConversionError`: an error value carrying one message. -/
structure ConversionError where
  details : String
deriving DecidableEq, Repr

/-- The fixed message used for the negative-input failure. -/
def negMsg : String := "unable to convert from negative integer to digits"

/-- The `while (rem / ten) > zero` loop of `digits_from_int`: each step
takes `rem % 10` and inserts it at the front of `v`; after the loop the
final remaining value is inserted at the front. -/
def digits_loop (rem : Int) (v : List Int) : List Int :=
  if h : rem / 10 > 0 then digits_loop (rem / 10) ((rem % 10) :: v)
  else rem :: v
termination_by rem.toNat
decreasing_by
  have h10 : 10 ≤ rem := by omega
  omega

/-- Embeds `digits_from_int`: on `n ≥ 0` run the digit loop starting
from the empty vector, otherwise return the conversion error. -/
def digits_from_int (n : Int) : Except ConversionError (List Int) :=
  if n ≥ 0 then .ok (digits_loop n [])
  else .error ⟨negMsg⟩

/-- The inner `for _ in 0..idx { digit = digit * ten }` loop of
`int_from_digits`. -/
def mulTen (digit : Int) : Nat → Int
  | 0 => digit
  | k + 1 => mulTen (digit * 10) k

/-- The outer `for (idx, digit) in v.into_iter().rev().enumerate()` loop
of `int_from_digits`: `idx` counts up from 0 while `number` accumulates. -/
def acc_loop (idx : Nat) (number : Int) : List Int → Int
  | [] => number
  | digit :: rest => acc_loop (idx + 1) (number + mulTen digit idx) rest

/-- Embeds `int_from_digits`: fold over the reversed digit list with the
accumulator initialized to zero. -/
def int_from_digits (v : List Int) : Int :=
  acc_loop 0 0 v.reverse

/-- Embeds the `Digits<T>` struct: an owned digit vector plus a cursor. -/
structure Digits where
  values : List Int
  index : Nat
deriving DecidableEq, Repr

/-- Outcome of the `From<T> for Digits<T>` constructor: the infallible
signature can only produce a value or abort the program. -/
inductive FromOutcome where
  | ok (d : Digits)
  | panicked (msg : String)
deriving DecidableEq, Repr

/-- Embeds `From<T> for Digits<T>`: decompose the integer; on success
build the wrapper with cursor 0, on failure panic with the error's
display form. -/
def Digits.fromInt (i : Int) : FromOutcome :=
  match digits_from_int i with
  | .ok values => .ok ⟨values, 0⟩
  | .error err => .panicked err.details

/-- Embeds `Iterator::next` for `Digits<T>`: state-passing form returning
the yielded item and the successor state. On `index >= values.len()`
return `None` leaving the state as is; otherwise increment the index and
return `values[index - 1]` (the element under the old cursor). -/
def Digits.next (s : Digits) : Option Int × Digits :=
  if h : s.index ≥ s.values.length then (none, s)
  else
    let s' : Digits := { s with index := s.index + 1 }
    (some (s.values.get ⟨s.index, Nat.lt_of_not_le h⟩), s')

/-- Embeds `Deref for Digits<T>`: a read-only borrow of the backing
vector; state-passing form returning the view and the (unchanged)
wrapper. -/
def Digits.deref (s : Digits) : List Int × Digits :=
  (s.values, s)

/-- `len()` reached through the `Deref` view. -/
def Digits.viewLen (s : Digits) : Nat × Digits :=
  ((s.deref).1.length, (s.deref).2)

/-- `contains(&x)` reached through the `Deref` view. -/
def Digits.viewContains (s : Digits) (x : Int) : Bool × Digits :=
  ((s.deref).1.contains x, (s.deref).2)

/-! ### Reasoning helpers -/

/-- The digit list produced for a non-negative input: the loop started
on the empty vector. -/
def digitsOf (n : Int) : List Int := digits_loop n []

/-- Little-endian (least-significant-first) value of a digit list; the
specification device relating digit lists to integers. -/
def lval : List Int → Int
  | [] => 0
  | d :: rest => d + 10 * lval rest

theorem digits_loop_step {rem : Int} (h : 0 < rem / 10) (v : List Int) :
    digits_loop rem v = digits_loop (rem / 10) ((rem % 10) :: v) := by
  rw [digits_loop]
  simp [h]

theorem digits_loop_last {rem : Int} (h : ¬ 0 < rem / 10) (v : List Int) :
    digits_loop rem v = rem :: v := by
  rw [digits_loop]
  simp [h]

theorem digits_loop_append (rem : Int) (v : List Int) :
    digits_loop rem v = digits_loop rem [] ++ v := by
  by_cases h : 0 < rem / 10
  · have ih := fun w => digits_loop_append (rem / 10) w
    rw [digits_loop_step h, digits_loop_step h, ih (rem % 10 :: v), ih [rem % 10]]
    simp
  · rw [digits_loop_last h, digits_loop_last h]
    simp
termination_by rem.toNat
decreasing_by
  have h10 : 10 ≤ rem := by omega
  omega

theorem digitsOf_step {n : Int} (h : 0 < n / 10) :
    digitsOf n = digitsOf (n / 10) ++ [n % 10] := by
  rw [digitsOf, digitsOf, digits_loop_step h, digits_loop_append]

theorem digitsOf_last {n : Int} (h : ¬ 0 < n / 10) : digitsOf n = [n] := by
  rw [digitsOf, digits_loop_last h]

theorem mulTen_eq (d : Int) (k : Nat) : mulTen d k = d * 10 ^ k := by
  induction k generalizing d with
  | zero => simp [mulTen]
  | succ k ih =>
    rw [mulTen, ih]
    ring

theorem acc_loop_eq (l : List Int) (idx : Nat) (number : Int) :
    acc_loop idx number l = number + 10 ^ idx * lval l := by
  induction l generalizing idx number with
  | nil => simp [acc_loop, lval]
  | cons d rest ih =>
    rw [acc_loop, ih, lval, mulTen_eq]
    ring

theorem int_from_digits_eq_lval (v : List Int) :
    int_from_digits v = lval v.reverse := by
  rw [int_from_digits, acc_loop_eq]
  ring

theorem lval_digitsOf_reverse (n : Int) (_hn : 0 ≤ n) :
    lval (digitsOf n).reverse = n := by
  by_cases h : 0 < n / 10
  · have ih := lval_digitsOf_reverse (n / 10) (by omega)
    rw [digitsOf_step h, List.reverse_append, List.reverse_singleton,
      List.singleton_append, lval, ih]
    omega
  · rw [digitsOf_last h, List.reverse_singleton, lval, lval]
    omega
termination_by n.toNat
decreasing_by
  have h10 : 10 ≤ n := by omega
  omega

theorem digitsOf_mem (n : Int) (hn : 0 ≤ n) :
    ∀ d ∈ digitsOf n, 0 ≤ d ∧ d < 10 := by
  by_cases h : 0 < n / 10
  · have ih := digitsOf_mem (n / 10) (by omega)
    rw [digitsOf_step h]
    intro d hd
    rcases List.mem_append.mp hd with h1 | h2
    · exact ih d h1
    · have hd10 : d = n % 10 := by simpa using h2
      subst hd10
      omega
  · rw [digitsOf_last h]
    intro d hd
    have hdn : d = n := by simpa using hd
    subst hdn
    omega
termination_by n.toNat
decreasing_by
  have h10 : 10 ≤ n := by omega
  omega

theorem digitsOf_ne_nil (n : Int) : digitsOf n ≠ [] := by
  by_cases h : 0 < n / 10
  · rw [digitsOf_step h]
    simp
  · rw [digitsOf_last h]
    simp

theorem digitsOf_head_pos (n : Int) (hn : 0 < n) :
    ∃ d t, digitsOf n = d :: t ∧ 0 < d := by
  by_cases h : 0 < n / 10
  · obtain ⟨d, t, hdt, hd⟩ := digitsOf_head_pos (n / 10) h
    rw [digitsOf_step h, hdt]
    exact ⟨d, t ++ [n % 10], rfl, hd⟩
  · rw [digitsOf_last h]
    exact ⟨n, [], rfl, hn⟩
termination_by n.toNat
decreasing_by
  have h10 : 10 ≤ n := by omega
  omega

theorem digitsOf_zero : digitsOf 0 = [0] := by
  rw [digitsOf_last (by norm_num)]

theorem lval_nonneg (l : List Int) (h : ∀ d ∈ l, 0 ≤ d) : 0 ≤ lval l := by
  induction l with
  | nil => simp [lval]
  | cons d rest ih =>
    rw [lval]
    have h1 := h d (by simp)
    have h2 := ih (fun x hx => h x (by simp [hx]))
    omega

theorem lval_pos_of_getLast (l : List Int) (h : ∀ d ∈ l, 0 ≤ d)
    (d : Int) (hd : l.getLast? = some d) (hpos : 0 < d) : 0 < lval l := by
  induction l with
  | nil => simp at hd
  | cons x rest ih =>
    rw [lval]
    match rest with
    | [] =>
      have hx : x = d := by simpa using hd
      subst hx
      rw [lval]
      omega
    | y :: t =>
      have hd' : (y :: t).getLast? = some d := by
        rwa [List.getLast?_cons_cons] at hd
      have hrec := ih (fun z hz => h z (by simp [List.mem_cons] at hz ⊢; tauto)) hd'
      have hx := h x (by simp)
      omega

theorem digitsOf_lval (e : List Int) : e ≠ [] → (∀ d ∈ e, 0 ≤ d ∧ d < 10) →
    (e.getLast? = some 0 → e = [0]) → digitsOf (lval e) = e.reverse := by
  induction e with
  | nil => intro h; exact absurd rfl h
  | cons dl e' ih =>
    intro _ hmem hcanon
    have hdl := hmem dl (by simp)
    match e' with
    | [] =>
      rw [lval, lval]
      rw [digitsOf_last (by omega)]
      simp
    | y :: t =>
      have hnnil : (y :: t) ≠ [] := by simp
      have hd : (y :: t).getLast? = some ((y :: t).getLast hnnil) :=
        List.getLast?_eq_getLast _ hnnil
      set d := (y :: t).getLast hnnil with hdset
      have hdmem : d ∈ y :: t := List.getLast_mem hnnil
      have hdnn := (hmem d (by simp [List.mem_cons] at hdmem ⊢; tauto)).1
      have hdpos : 0 < d := by
        rcases lt_or_eq_of_le hdnn with h | h
        · exact h
        · exfalso
          have : (dl :: y :: t).getLast? = some 0 := by
            rw [List.getLast?_cons_cons, hd, ← h]
          exact absurd (hcanon this) (by simp)
      have hm : 0 < lval (y :: t) :=
        lval_pos_of_getLast _ (fun z hz => (hmem z (by simp [List.mem_cons] at hz ⊢; tauto)).1)
          d hd hdpos
      rw [lval]
      have hstep : 0 < (dl + 10 * lval (y :: t)) / 10 := by omega
      rw [digitsOf_step hstep]
      have hdiv : (dl + 10 * lval (y :: t)) / 10 = lval (y :: t) := by omega
      have hmod : (dl + 10 * lval (y :: t)) % 10 = dl := by omega
      rw [hdiv, hmod]
      have hihres := ih (by simp)
        (fun z hz => hmem z (by simp [List.mem_cons] at hz ⊢; tauto))
        (fun hzero => by
          rw [hd] at hzero
          exact absurd (Option.some_injective _ hzero) (by omega))
      rw [hihres]
      simp


theorem digitsOf_natDigits (n : Int) (hn : 0 < n) :
    (digitsOf n).reverse.map Int.toNat = Nat.digits 10 n.toNat := by
  by_cases h : 0 < n / 10
  · have ih := digitsOf_natDigits (n / 10) h
    rw [digitsOf_step h, List.reverse_append, List.reverse_singleton,
      List.singleton_append, List.map_cons, ih]
    rw [Nat.digits_def' (b := 10) (by norm_num) (n := n.toNat) (by omega)]
    have e1 : (n / 10).toNat = n.toNat / 10 := by omega
    have e2 : (n % 10).toNat = n.toNat % 10 := by omega
    rw [e1, e2]
  · rw [digitsOf_last h, List.reverse_singleton, List.map_cons, List.map_nil]
    rw [Nat.digits_of_lt 10 n.toNat (by omega) (by omega)]
termination_by n.toNat
decreasing_by
  have h10 : 10 ≤ n := by omega
  omega

theorem lval_sum (l : List Int) :
    lval l = ∑ i ∈ Finset.range l.length, l.getD i 0 * 10 ^ i := by
  induction l with
  | nil => simp [lval]
  | cons x rest ih =>
    rw [lval, ih, List.length_cons, Finset.sum_range_succ']
    simp only [List.getD_cons_succ, List.getD_cons_zero, pow_zero, mul_one]
    rw [Finset.mul_sum, add_comm]
    congr 1
    refine Finset.sum_congr rfl fun i _ => by ring

theorem int_from_digits_lsb_sum (v : List Int) :
    int_from_digits v =
      ∑ i ∈ Finset.range v.length, v.reverse.getD i 0 * 10 ^ i := by
  rw [int_from_digits_eq_lval, lval_sum, List.length_reverse]

theorem int_from_digits_msb_sum (v : List Int) :
    int_from_digits v =
      ∑ i ∈ Finset.range v.length, v.getD i 0 * 10 ^ (v.length - 1 - i) := by
  rw [int_from_digits_lsb_sum,
    ← Finset.sum_range_reflect (fun i => v.getD i 0 * 10 ^ (v.length - 1 - i)) v.length]
  refine Finset.sum_congr rfl fun i hi => ?_
  have hi' : i < v.length := Finset.mem_range.mp hi
  have hidx : v.length - 1 - (v.length - 1 - i) = i := by omega
  rw [hidx]
  congr 1
  rw [List.getD_eq_getElem?_getD, List.getD_eq_getElem?_getD,
    List.getElem?_reverse hi']

theorem digits_from_int_nonneg (n : Int) (hn : 0 ≤ n) :
    digits_from_int n = .ok (digitsOf n) := by
  unfold digits_from_int
  rw [if_pos hn]
  rfl

theorem digits_from_int_neg (n : Int) (hn : n < 0) :
    digits_from_int n = .error ⟨negMsg⟩ := by
  unfold digits_from_int
  rw [if_neg (by omega)]

theorem digitsOf_42 : digitsOf 42 = [4, 2] := by
  have h := digitsOf_lval [2, 4] (by decide) (by decide) (by decide)
  norm_num [lval] at h
  exact h

theorem digits_from_int_42 : digits_from_int 42 = .ok [4, 2] := by
  rw [digits_from_int_nonneg 42 (by norm_num), digitsOf_42]

theorem digitsOf_255 : digitsOf 255 = [2, 5, 5] := by
  have h := digitsOf_lval [5, 5, 2] (by decide) (by decide) (by decide)
  norm_num [lval] at h
  exact h

theorem digitsOf_65535 : digitsOf 65535 = [6, 5, 5, 3, 5] := by
  have h := digitsOf_lval [5, 3, 5, 5, 6] (by decide) (by decide) (by decide)
  norm_num [lval] at h
  exact h

theorem digitsOf_u32max : digitsOf 4294967295 = [4, 2, 9, 4, 9, 6, 7, 2, 9, 5] := by
  have h := digitsOf_lval [5, 9, 2, 7, 6, 9, 4, 9, 2, 4] (by decide) (by decide) (by decide)
  norm_num [lval] at h
  exact h

theorem digitsOf_u64max : digitsOf 18446744073709551615 =
    [1, 8, 4, 4, 6, 7, 4, 4, 0, 7, 3, 7, 0, 9, 5, 5, 1, 6, 1, 5] := by
  have h := digitsOf_lval [5, 1, 6, 1, 5, 5, 9, 0, 7, 3, 7, 0, 4, 4, 7, 6, 4, 4, 8, 1]
    (by decide) (by decide) (by decide)
  norm_num [lval] at h
  exact h

/-! ### Claims -/

/-- C1: for every non-negative integer `n`, `digits_from_int` succeeds
and `int_from_digits` applied to its result returns `n` (the round-trip
law `Recompose(Decompose(n)) = n`). -/
theorem decompose_recompose_round_trip (n : Int) (hn : 0 ≤ n) :
    ∃ ds, digits_from_int n = .ok ds ∧ int_from_digits ds = n := by
  refine ⟨digitsOf n, digits_from_int_nonneg n hn, ?_⟩
  rw [int_from_digits_eq_lval, lval_digitsOf_reverse n hn]

theorem decompose_recompose_round_trip_witness :
    ∃ ds, digits_from_int 42 = .ok ds ∧ int_from_digits ds = 42 :=
  decompose_recompose_round_trip 42 (by norm_num)

/-- C2: for every `n < 0`, `digits_from_int` fails with a
`ConversionError` carrying exactly the message "unable to convert from
negative integer to digits"; for every `n ≥ 0` it succeeds, so negative
input is the only error condition. -/
theorem negative_input_error (n : Int) :
    (n < 0 → digits_from_int n =
      .error ⟨"unable to convert from negative integer to digits"⟩) ∧
    (0 ≤ n → ∃ ds, digits_from_int n = .ok ds) := by
  constructor
  · intro h
    rw [digits_from_int_neg n h]
    rfl
  · intro h
    exact ⟨digitsOf n, digits_from_int_nonneg n h⟩

theorem negative_input_error_witness :
    digits_from_int (-42) =
      .error ⟨"unable to convert from negative integer to digits"⟩ ∧
    ∃ ds, digits_from_int 0 = .ok ds :=
  ⟨(negative_input_error (-42)).1 (by norm_num),
   (negative_input_error 0).2 (by norm_num)⟩

/-- C3: for every valid digit sequence `d` (non-empty, each element in
`[0, 9]`, leading zero only in the single-zero case `[0]`),
`digits_from_int (int_from_digits d)` succeeds and returns `d`; the
overflow proviso is vacuous in the unbounded-integer embedding. -/
theorem recompose_decompose_round_trip (d : List Int) (hne : d ≠ [])
    (hdig : ∀ x ∈ d, 0 ≤ x ∧ x ≤ 9) (hlead : d.head? = some 0 → d = [0]) :
    digits_from_int (int_from_digits d) = .ok d := by
  have hdig' : ∀ x ∈ d.reverse, 0 ≤ x ∧ x < 10 := by
    intro x hx
    have := hdig x (List.mem_reverse.mp hx)
    omega
  have hnn : 0 ≤ lval d.reverse := lval_nonneg _ (fun x hx => (hdig' x hx).1)
  have hcanon : d.reverse.getLast? = some 0 → d.reverse = [0] := by
    intro h0
    rw [List.getLast?_reverse] at h0
    rw [hlead h0]
    rfl
  have hres := digitsOf_lval d.reverse (by simpa using hne) hdig' hcanon
  rw [List.reverse_reverse] at hres
  rw [int_from_digits_eq_lval, digits_from_int_nonneg _ hnn, hres]

theorem recompose_decompose_round_trip_witness :
    digits_from_int (int_from_digits [4, 2]) = .ok [4, 2] :=
  recompose_decompose_round_trip [4, 2] (by decide) (by decide) (by decide)

/-- C4: for every `n ≥ 0` the sequence returned by `digits_from_int` is
non-empty, every element lies in `[0, 9]`, `digits_from_int 0 = [0]`, no
returned sequence other than `[0]` has a leading zero, and for `n > 0`
the sequence is the most-significant-first base-10 representation of `n`
(its reverse is `Nat.digits 10 n`). -/
theorem digit_sequence_invariants (n : Int) (hn : 0 ≤ n) (ds : List Int)
    (hds : digits_from_int n = .ok ds) :
    ds ≠ [] ∧ (∀ d ∈ ds, 0 ≤ d ∧ d ≤ 9) ∧ (n = 0 → ds = [0]) ∧
    (∀ t, ds = 0 :: t → n = 0) ∧
    (0 < n → ds.reverse.map Int.toNat = Nat.digits 10 n.toNat) := by
  rw [digits_from_int_nonneg n hn] at hds
  injection hds with hds
  subst hds
  refine ⟨digitsOf_ne_nil n, ?_, ?_, ?_, digitsOf_natDigits n⟩
  · intro d hd
    have := digitsOf_mem n hn d hd
    omega
  · intro h0
    subst h0
    exact digitsOf_zero
  · intro t ht
    by_contra hne0
    have hpos : 0 < n := by omega
    obtain ⟨d, t', hdt, hd⟩ := digitsOf_head_pos n hpos
    rw [hdt] at ht
    injection ht with h1 h2
    omega

theorem digit_sequence_invariants_witness :
    ([4, 2] : List Int) ≠ [] ∧ (∀ d ∈ ([4, 2] : List Int), 0 ≤ d ∧ d ≤ 9) ∧
    ((42 : Int) = 0 → ([4, 2] : List Int) = [0]) ∧
    (∀ t, ([4, 2] : List Int) = 0 :: t → (42 : Int) = 0) ∧
    ((0 : Int) < 42 →
      ([4, 2] : List Int).reverse.map Int.toNat = Nat.digits 10 (42 : Int).toNat) :=
  digit_sequence_invariants 42 (by norm_num) [4, 2] digits_from_int_42

/-- C5: `int_from_digits` is total (it is a plain function with no error
result) and returns the positional sum of its digits: the digit at
reversed position `idx` contributes `digit * 10 ^ idx`, equivalently the
digit at most-significant-first position `i` of a length-`L` sequence
contributes `d[i] * 10 ^ (L - 1 - i)`. -/
theorem recompose_positional_sum (v : List Int) :
    int_from_digits v =
      (∑ i ∈ Finset.range v.length, v.reverse.getD i 0 * 10 ^ i) ∧
    int_from_digits v =
      ∑ i ∈ Finset.range v.length, v.getD i 0 * 10 ^ (v.length - 1 - i) :=
  ⟨int_from_digits_lsb_sum v, int_from_digits_msb_sum v⟩

/-- C6: `digits_from_int` reproduces the exact digit sequence of the
unsigned maximum of each supported width (8, 16, 32 and 64 bits). -/
theorem width_max_checkpoints :
    digits_from_int 255 = .ok [2, 5, 5] ∧
    digits_from_int 65535 = .ok [6, 5, 5, 3, 5] ∧
    digits_from_int 4294967295 = .ok [4, 2, 9, 4, 9, 6, 7, 2, 9, 5] ∧
    digits_from_int 18446744073709551615 =
      .ok [1, 8, 4, 4, 6, 7, 4, 4, 0, 7, 3, 7, 0, 9, 5, 5, 1, 6, 1, 5] := by
  refine ⟨?_, ?_, ?_, ?_⟩
  · rw [digits_from_int_nonneg 255 (by norm_num), digitsOf_255]
  · rw [digits_from_int_nonneg 65535 (by norm_num), digitsOf_65535]
  · rw [digits_from_int_nonneg 4294967295 (by norm_num), digitsOf_u32max]
  · rw [digits_from_int_nonneg 18446744073709551615 (by norm_num), digitsOf_u64max]

/-- C7: `Digits.next` returns the digit under the current cursor
(most-significant first) and advances the cursor by one, and returns
`none` with the state unchanged once the cursor has reached the end (so
exhaustion is terminal); constructing from `42` and calling `next` three
times yields `4`, `2`, then `none`. -/
theorem digits_iterator_next_semantics :
    (∀ s : Digits,
      (s.index < s.values.length →
        (s.next).1 = some (s.values.getD s.index 0) ∧
        (s.next).2.values = s.values ∧ (s.next).2.index = s.index + 1) ∧
      (s.values.length ≤ s.index → s.next = (none, s))) ∧
    (Digits.fromInt 42 = .ok ⟨[4, 2], 0⟩ ∧
      (Digits.mk [4, 2] 0).next = (some 4, ⟨[4, 2], 1⟩) ∧
      (Digits.mk [4, 2] 1).next = (some 2, ⟨[4, 2], 2⟩) ∧
      (Digits.mk [4, 2] 2).next = (none, ⟨[4, 2], 2⟩)) := by
  constructor
  · intro s
    constructor
    · intro h
      unfold Digits.next
      rw [dif_neg (by omega)]
      refine ⟨?_, rfl, rfl⟩
      rw [List.getD_eq_getElem?_getD, List.getElem?_eq_getElem h]
      rfl
    · intro h
      unfold Digits.next
      rw [dif_pos (by omega)]
  · refine ⟨?_, by decide, by decide, by decide⟩
    unfold Digits.fromInt
    rw [digits_from_int_42]

theorem digits_iterator_next_semantics_witness :
    ((Digits.mk [4, 2] 0).next).1 = some ((Digits.mk [4, 2] 0).values.getD 0 0) ∧
    (Digits.mk [4, 2] 2).next = (none, Digits.mk [4, 2] 2) :=
  ⟨((digits_iterator_next_semantics.1 ⟨[4, 2], 0⟩).1 (by decide)).1,
   (digits_iterator_next_semantics.1 ⟨[4, 2], 2⟩).2 (by decide)⟩

/-- C8: read-only inspection of the backing digit sequence through the
`Deref` view (length, membership) neither modifies the values nor the
cursor: the wrapper state returned alongside each view operation is the
input state, and the results are independent of the cursor position. -/
theorem deref_view_preserves_cursor (v : List Int) (i j : Nat) (x : Int) :
    ((Digits.mk v i).viewLen).2 = Digits.mk v i ∧
    ((Digits.mk v i).viewContains x).2 = Digits.mk v i ∧
    ((Digits.mk v i).deref).2 = Digits.mk v i ∧
    ((Digits.mk v i).deref).1 = v ∧
    ((Digits.mk v i).viewLen).1 = ((Digits.mk v j).viewLen).1 ∧
    ((Digits.mk v i).viewContains x).1 = ((Digits.mk v j).viewContains x).1 :=
  ⟨rfl, rfl, rfl, rfl, rfl, rfl⟩

/-- C9: the `From` constructor of `Digits` turns the decomposition
failure on a negative input into a panic carrying the error's message
(its result type offers no recoverable-error alternative), and on every
non-negative input it succeeds, so the panic branch is unreachable under
the precondition `n ≥ 0`. -/
theorem from_constructor_panics_on_negative (n : Int) :
    (n < 0 → Digits.fromInt n =
      .panicked "unable to convert from negative integer to digits") ∧
    (0 ≤ n → ∃ d, Digits.fromInt n = .ok d) := by
  constructor
  · intro h
    unfold Digits.fromInt
    rw [digits_from_int_neg n h]
    rfl
  · intro h
    refine ⟨⟨digitsOf n, 0⟩, ?_⟩
    unfold Digits.fromInt
    rw [digits_from_int_nonneg n h]

theorem from_constructor_panics_on_negative_witness :
    Digits.fromInt (-1) =
      .panicked "unable to convert from negative integer to digits" ∧
    ∃ d, Digits.fromInt 7 = .ok d :=
  ⟨(from_constructor_panics_on_negative (-1)).1 (by norm_num),
   (from_constructor_panics_on_negative 7).2 (by norm_num)⟩

/-- C10: `int_from_digits` applied to the empty sequence returns the
accumulator's initial value `0` without any failure. -/
theorem recompose_empty_eq_zero : int_from_digits [] = 0 := rfl
